import Mathlib

/-!
Shallow embedding of `src/lammps/compute_flare_std_atom.cpp` (the FLARE
per-atom uncertainty compute for LAMMPS) and proofs about it.

Modelling conventions:
* C `double` arithmetic is modelled by exact rationals `ℚ`; the properties
  checked here are the exact-arithmetic identities the specification states.
* C arrays are modelled as total functions `Nat → ℚ` (resp. `Nat → Nat → ℚ`);
  a single store `A[a][b] = v` is the pointwise update `upd2`.
* The external descriptor library (`single_bond`, `B2_descriptor`) is a black
  box: its per-atom derivative matrix enters the model as an uninterpreted
  function supplied in the configuration, exactly as the spec treats the
  Descriptor Adapter.
* Loops become folds over the same index ranges, in the same order, so each
  definition can be diffed line by line against the C source.
-/

namespace Flare

/-- Pointwise update of a two-index array, modelling one C store `A[a][b] = v`. -/
def upd2 (f : Nat → Nat → ℚ) (a b : Nat) (v : ℚ) : Nat → Nat → ℚ :=
  fun x y => if x = a ∧ y = b then v else f x y

/-- Pointwise update of a one-index array, modelling one C store `A[a] = v`. -/
def upd1 (f : Nat → ℚ) (a : Nat) (v : ℚ) : Nat → ℚ :=
  fun x => if x = a then v else f x

theorem upd2_same (f : Nat → Nat → ℚ) (a b : Nat) (v : ℚ) : upd2 f a b v a b = v := by
  simp [upd2]

theorem upd2_of_ne (f : Nat → Nat → ℚ) (a b x y : Nat) (v : ℚ) (h : ¬(x = a ∧ y = b)) :
    upd2 f a b v x y = f x y := by
  simp [upd2, h]

/-- Mutable per-step state of the compute: the per-atom uncertainty array
`stds[nmax][3]` and the per-atom descriptor-derivative table
`desc_derv[nmax*3][n_descriptors]` (row index `atom*3 + component`). -/
structure SimState where
  stds : Nat → Nat → ℚ
  desc_derv : Nat → Nat → ℚ

/-- Replace the `stds` array of a state. -/
def setStds (s : SimState) (f : Nat → Nat → ℚ) : SimState :=
  { s with stds := f }

/-- Replace the `desc_derv` table of a state. -/
def setDerv (s : SimState) (f : Nat → Nat → ℚ) : SimState :=
  { s with desc_derv := f }

/-- Embedding of the `comm_reverse = 1` assignment in the constructor
(`ComputeFlareStdAtom::ComputeFlareStdAtom`, line 37): the per-atom width the
compute declares for reverse communication. -/
def comm_reverse : Nat := 1

/-- Body of the `for (i = first; i < last; i++)` loop of `pack_reverse_comm`
(lines 201 to 207), with the remaining trip count as fuel: for each atom the
inner `comp` loop pushes `stds[i][0], stds[i][1], stds[i][2]` onto the buffer. -/
def packLoop (stds : Nat → Nat → ℚ) (first n : Nat) : List ℚ :=
  match n with
  | 0 => []
  | m + 1 => stds first 0 :: stds first 1 :: stds first 2 :: packLoop stds (first + 1) m

/-- Embedding of `ComputeFlareStdAtom::pack_reverse_comm` (lines 197 to 209):
returns the flat buffer written and the value `m` returned by the C function
(which equals the number of doubles written). -/
def pack_reverse_comm (s : SimState) (n first : Nat) : List ℚ × Nat :=
  let buf := packLoop s.stds first n
  (buf, buf.length)

/-- The inner `comp` loop of `unpack_reverse_comm` (lines 220 to 222): three
sequential `stds[j][comp] += buf[m++]` stores. -/
def addTriple (stds : Nat → Nat → ℚ) (j : Nat) (b0 b1 b2 : ℚ) : Nat → Nat → ℚ :=
  let s0 := upd2 stds j 0 (stds j 0 + b0)
  let s1 := upd2 s0 j 1 (s0 j 1 + b1)
  upd2 s1 j 2 (s1 j 2 + b2)

/-- The `for (i = 0; i < n; i++)` loop of `unpack_reverse_comm` (lines 218 to
223): `j = list[i]`, then add the next three buffer values onto row `j`.
Advancing the cursor `m` by three is modelled by dropping three buffer
entries per atom. -/
def unpackLoop (stds : Nat → Nat → ℚ) (js : List Nat) (buf : List ℚ) : Nat → Nat → ℚ :=
  match js with
  | [] => stds
  | j :: rest =>
      unpackLoop (addTriple stds j (buf.getD 0 0) (buf.getD 1 0) (buf.getD 2 0)) rest (buf.drop 3)

/-- Embedding of `ComputeFlareStdAtom::unpack_reverse_comm` (lines 213 to 224).
Only `stds` is read and written; `desc_derv` is untouched. -/
def unpack_reverse_comm (s : SimState) (js : List Nat) (buf : List ℚ) : SimState :=
  { s with stds := unpackLoop s.stds js buf }

/-- Writes performed for the tokens of one line of the potential file, starting
at array index `i`: the inner `strtok` loop of `grab` stores every token of the
line at consecutive indices, with no bound check against `n`. -/
def lineWrites (i : Nat) (line : List ℚ) : List (Nat × ℚ) :=
  match line with
  | [] => []
  | v :: rest => (i, v) :: lineWrites (i + 1) rest

/-- The `while (i < n)` loop of `ComputeFlareStdAtom::grab` (lines 422 to 429):
while fewer than `n` values have been stored, read the next line and store all
of its whitespace-separated values. Each write is recorded as an
(array index, value) pair. Running out of lines stops the model (the C code
would read a failed `fgets` buffer there). -/
def grabGo (n i : Nat) (lines : List (List ℚ)) : List (Nat × ℚ) :=
  match lines with
  | [] => []
  | line :: rest =>
      if i < n then lineWrites i line ++ grabGo n (i + line.length) rest
      else []

/-- Embedding of `ComputeFlareStdAtom::grab` (lines 418 to 430), as the list of
array writes it performs. -/
def grab (n : Nat) (lines : List (List ℚ)) : List (Nat × ℚ) :=
  grabGo n 0 lines

/-- Replay a list of recorded writes onto a one-index array. -/
def applyWrites (f : Nat → ℚ) (ws : List (Nat × ℚ)) : Nat → ℚ :=
  ws.foldl (fun g w => upd1 g w.1 w.2) f

/-- Iteration order of the inner loop `for (j = i; j < D; j++)` for a fixed
row `i`: the pairs `(i, i), (i, i+1), ..., (i, D-1)`. -/
def rowPairs (i D : Nat) : List (Nat × Nat) :=
  (List.range (D - i)).map (fun t => (i, i + t))

/-- Iteration order of the upper-triangular double loop
`for (i = 0; i < D; i++) for (j = i; j < D; j++)`, shared by the matrix fill
in `read_file` (lines 396 to 407) and the contraction loops of
`compute_peratom` (lines 178 to 188). -/
def triPairs (D : Nat) : List (Nat × Nat) :=
  (List.range D).flatMap (fun i => rowPairs i D)

/-- Position of the pair `(i, j)` (with `i ≤ j < D`) in the upper-triangular
iteration order: all of rows `0..i-1` come first, then `j - i` entries of
row `i`. -/
def triPos (D i j : Nat) : Nat :=
  ((List.range i).map (fun a => D - a)).sum + (j - i)

/-- One iteration of the matrix-filling loop body in `read_file` (lines 398 to
405): the state is the matrix together with the running `beta_count`; on the
diagonal the raw `beta` value is stored, off the diagonal half the raw value
is stored at both `(i, j)` and `(j, i)`, and `beta_count` is incremented. -/
def betaStep (beta : Nat → ℚ) (st : (Nat → Nat → ℚ) × Nat) (p : Nat × Nat) :
    (Nat → Nat → ℚ) × Nat :=
  if p.1 = p.2 then
    (upd2 st.1 p.1 p.2 (beta st.2), st.2 + 1)
  else
    let beta_val := beta st.2 / 2
    (upd2 (upd2 st.1 p.1 p.2 beta_val) p.2 p.1 beta_val, st.2 + 1)

/-- The matrix built for one species by the double loop of `read_file`
(lines 395 to 407), starting from `Eigen::MatrixXd::Zero` and from the given
running value of `beta_count`; returns the matrix and the new `beta_count`. -/
def fillSpecies (beta : Nat → ℚ) (D c0 : Nat) : (Nat → Nat → ℚ) × Nat :=
  (triPairs D).foldl (betaStep beta) (fun _ _ => 0, c0)

/-- The `for (k = 0; k < n_species; k++)` loop of `read_file` (lines 394 to
408): one matrix per species is built and pushed onto `beta_matrices`, with
`beta_count` threaded through all species. -/
def fillAll (beta : Nat → ℚ) (n_species D : Nat) : List (Nat → Nat → ℚ) :=
  ((List.range n_species).foldl
    (fun (st : List (Nat → Nat → ℚ) × Nat) _k =>
      let r := fillSpecies beta D st.2
      (st.1 ++ [r.1], r.2))
    ([], 0)).1

/-- Header data of a potential file, as parsed by `read_file` lines 338 to 350:
the discarded header line, the radial basis token, the four integers
`n_species n_max l_max beta_size`, the cutoff function token, the cutoff, and
the remaining lines of whitespace-separated beta values. -/
structure PotFile where
  radial_string : String
  n_species : Nat
  n_max : Nat
  l_max : Nat
  beta_size : Nat
  cutoff_string : String
  cutoff : ℚ
  beta_lines : List (List ℚ)

/-- The closed set of radial basis implementations `read_file` can select
(line 373 resolves only `chebyshev`). -/
inductive RadialBasis where
  | chebyshev
deriving DecidableEq

/-- The closed set of cutoff functions `read_file` can select (lines 378 to
381 resolve `quadratic` and `cosine`). -/
inductive CutoffFunc where
  | quadratic_cutoff
  | cos_cutoff
deriving DecidableEq

/-- Result of a successful `read_file`: the hyperparameters, the resolved
basis and cutoff strategies (left unset, `none`, when no token matched), the
parsed beta array, and the per-species covariance matrices. -/
structure PotData where
  n_species : Nat
  n_max : Nat
  l_max : Nat
  beta_size : Nat
  cutoff : ℚ
  n_descriptors : Nat
  basis_function : Option RadialBasis
  radial_hyps : List ℚ
  cutoff_function : Option CutoffFunc
  beta : Nat → ℚ
  beta_matrices : List (Nat → Nat → ℚ)

/-- Embedding of `ComputeFlareStdAtom::read_file` (lines 321 to 410) after the
header fields have been scanned: compute `n_descriptors` from
`n_radial = n_max * n_species` (lines 363 to 364), abort with the fatal error
of line 369 when `n_descriptors * (n_descriptors + 1) / 2` differs from the
declared `beta_size` (so no matrix is ever built in that case), resolve the
radial and cutoff tokens (unrecognized tokens silently leave the strategy
unset), `grab` the `beta_size * n_species` values, and fill one symmetric
matrix per species. -/
def read_file (f : PotFile) : Except String PotData :=
  let n_radial := f.n_max * f.n_species
  let n_descriptors := (n_radial * (n_radial + 1) / 2) * (f.l_max + 1)
  let beta_check := n_descriptors * (n_descriptors + 1) / 2
  if beta_check ≠ f.beta_size then
    .error "Beta size does not match the number of descriptors."
  else
    let basis_function :=
      if f.radial_string = "chebyshev" then some RadialBasis.chebyshev else none
    let radial_hyps := if f.radial_string = "chebyshev" then [0, f.cutoff] else []
    let cutoff_function :=
      if f.cutoff_string = "quadratic" then some CutoffFunc.quadratic_cutoff
      else if f.cutoff_string = "cosine" then some CutoffFunc.cos_cutoff
      else none
    let beta := applyWrites (fun _ => 0) (grab (f.beta_size * f.n_species) f.beta_lines)
    .ok
      { n_species := f.n_species
        n_max := f.n_max
        l_max := f.l_max
        beta_size := f.beta_size
        cutoff := f.cutoff
        n_descriptors := n_descriptors
        basis_function := basis_function
        radial_hyps := radial_hyps
        cutoff_function := cutoff_function
        beta := beta
        beta_matrices := fillAll beta f.n_species n_descriptors }

/-- Per-step inputs of `ComputeFlareStdAtom::compute_peratom`, supplied by the
host engine: atom counts, the newton flag, the neighbor list (`inum` entries of
`ilist` are valid; the function is total because the C code also reads past
them), positions, types, the cutoff, the descriptor dimension, the black-box
descriptor derivative matrix `B2_env_dervs` produced per central atom by the
external descriptor library, and the loaded covariance matrices indexed by
`itype - 1`. -/
structure SimConfig where
  nlocal : Nat
  nghost : Nat
  newton : Bool
  inum : Nat
  ilist : Nat → Nat
  firstneigh : Nat → List Nat
  x : Nat → Nat → ℚ
  typ : Nat → Nat
  cutoff : ℚ
  n_descriptors : Nat
  B2_env_dervs : Nat → Nat → Nat → ℚ
  beta_matrices : Nat → Nat → Nat → ℚ

/-- The loop bound of the zeroing loop (lines 92 and 93):
`ntotal = nlocal`, plus `nghost` when newton is on. -/
def ntotal (cfg : SimConfig) : Nat :=
  cfg.nlocal + if cfg.newton then cfg.nghost else 0

/-- The inner `for (nl = 0; nl < n_descriptors; nl++)` zeroing loop of
lines 109 to 111 for one row of `desc_derv`. -/
def zeroCols (D row : Nat) (dd : Nat → Nat → ℚ) : Nat → Nat → ℚ :=
  (List.range D).foldl (fun d nl => upd2 d row nl 0) dd

/-- The `comp` loop body of the zeroing loop (lines 107 to 112):
`stds[i][comp] = 0.0` and then zero the `desc_derv` row `i*3 + comp`. -/
def zeroAtomRow (D : Nat) (s : SimState) (i : Nat) : SimState :=
  (List.range 3).foldl
    (fun s1 comp =>
      { stds := upd2 s1.stds i comp 0
        desc_derv := zeroCols D (i * 3 + comp) s1.desc_derv })
    s

/-- The zeroing loop of `compute_peratom` (lines 105 to 113): for
`ii < ntotal` the code reads `i = ilist[ii]` - including reads past the `inum`
valid entries of `ilist` - and zeroes the `stds` triple and `desc_derv` rows
of that atom. -/
def resetPhase (cfg : SimConfig) (s : SimState) : SimState :=
  (List.range (ntotal cfg)).foldl
    (fun st ii => zeroAtomRow cfg.n_descriptors st (cfg.ilist ii)) s

/-- The squared distance `rsq` computed from `delx, dely, delz`
(lines 157 to 160). -/
def rsq (cfg : SimConfig) (i j : Nat) : ℚ :=
  let delx := cfg.x i 0 - cfg.x j 0
  let dely := cfg.x i 1 - cfg.x j 1
  let delz := cfg.x i 2 - cfg.x j 2
  delx * delx + dely * dely + delz * delz

/-- One paired store of the accumulation loop (lines 165 to 166):
`desc_derv[r1][nl] += v` followed by `desc_derv[r2][nl] -= v`. -/
def pairUpdate (dd : Nat → Nat → ℚ) (r1 r2 nl : Nat) (v : ℚ) : Nat → Nat → ℚ :=
  let d1 := upd2 dd r1 nl (dd r1 nl + v)
  upd2 d1 r2 nl (d1 r2 nl - v)

/-- The `comp` and `nl` loops of the accumulation body (lines 163 to 168) for
one in-cutoff neighbor `j` of atom `i` at in-cutoff position `n_count`: each
derivative row of the adapter output is added to atom `i` and subtracted from
atom `j`. -/
def accumNeighbor (D : Nat) (B2 : Nat → Nat → ℚ) (i j n_count : Nat) (s : SimState) : SimState :=
  (List.range 3).foldl
    (fun s1 comp =>
      (List.range D).foldl
        (fun s2 nl =>
          setDerv s2
            (pairUpdate s2.desc_derv (i * 3 + comp) (j * 3 + comp) nl
              (B2 (n_count * 3 + comp) nl)))
        s1)
    s

/-- The second neighbor walk of `compute_peratom` for atom `i` (lines 154 to
171): the same cutoff test as the counting pass, with `n_count` advanced only
on in-cutoff neighbors. -/
def accumAtom (cfg : SimConfig) (s : SimState) (i : Nat) : SimState :=
  ((cfg.firstneigh i).foldl
    (fun (st : SimState × Nat) j =>
      if rsq cfg i j < cfg.cutoff * cfg.cutoff then
        (accumNeighbor cfg.n_descriptors (cfg.B2_env_dervs i) i j st.2 st.1, st.2 + 1)
      else st)
    (s, 0)).1

/-- The accumulation loop over owned atoms (lines 115 to 172): for each
`ii < inum`, accumulate the derivative rows of atom `i = ilist[ii]`. -/
def accumPhase (cfg : SimConfig) (s : SimState) : SimState :=
  (List.range cfg.inum).foldl (fun st ii => accumAtom cfg st (cfg.ilist ii)) s

/-- One term of the contraction (lines 181 to 185), reading the given
`desc_derv` table: weight 1 on the diagonal, weight 2 off the diagonal. -/
def evalTerm (cfg : SimConfig) (dd : Nat → Nat → ℚ) (i comp nl1 nl2 : Nat) : ℚ :=
  if nl1 = nl2 then
    dd (i * 3 + comp) nl1 * cfg.beta_matrices (cfg.typ i - 1) nl1 nl2 * dd (i * 3 + comp) nl2
  else
    dd (i * 3 + comp) nl1 * cfg.beta_matrices (cfg.typ i - 1) nl1 nl2 * dd (i * 3 + comp) nl2 * 2

/-- The inner `comp` loop of the contraction (lines 180 to 186) for one pair
`(nl1, nl2)`: `stds[i][comp] +=` the weighted term. -/
def evalPairComp (cfg : SimConfig) (i : Nat) (p : Nat × Nat) (s : SimState) : SimState :=
  (List.range 3).foldl
    (fun s2 comp =>
      setStds s2
        (upd2 s2.stds i comp (s2.stds i comp + evalTerm cfg s2.desc_derv i comp p.1 p.2)))
    s

/-- The upper-triangular contraction loops for one owned atom (lines 178 to
188): `nl1` from `0`, `nl2` from `nl1`, `comp` innermost. -/
def evalAtom (cfg : SimConfig) (s : SimState) (i : Nat) : SimState :=
  (triPairs cfg.n_descriptors).foldl (fun s1 p => evalPairComp cfg i p s1) s

/-- The evaluation loop over owned atoms (lines 174 to 190). -/
def evalPhase (cfg : SimConfig) (s : SimState) : SimState :=
  (List.range cfg.inum).foldl (fun st ii => evalAtom cfg st (cfg.ilist ii)) s

/-- Embedding of `ComputeFlareStdAtom::compute_peratom` (lines 71 to 193):
zero, accumulate, evaluate. The function performs no reverse communication;
`pack_reverse_comm` and `unpack_reverse_comm` are never invoked by it. -/
def compute_peratom (cfg : SimConfig) (s : SimState) : SimState :=
  evalPhase cfg (accumPhase cfg (resetPhase cfg s))

/-- A state with both arrays zero, used for concrete evaluations. -/
def zeroState : SimState :=
  { stds := fun _ _ => 0, desc_derv := fun _ _ => 0 }

/-! Lemmas about the reverse-communication pair. -/

theorem packLoop_length (stds : Nat → Nat → ℚ) (first n : Nat) :
    (packLoop stds first n).length = 3 * n := by
  induction n generalizing first with
  | zero => rfl
  | succ m ih => simp [packLoop, ih]; ring

theorem packLoop_getD (stds : Nat → Nat → ℚ) (n : Nat) :
    ∀ first t c, t < n → c < 3 →
      (packLoop stds first n).getD (3 * t + c) 0 = stds (first + t) c := by
  induction n with
  | zero => intro first t c ht; omega
  | succ m ih =>
      intro first t c ht hc
      match t with
      | 0 =>
          interval_cases c <;> simp [packLoop]
      | t' + 1 =>
          have harith : 3 * (t' + 1) + c = (3 * t' + c) + 1 + 1 + 1 := by ring
          rw [harith]
          simp only [packLoop, List.getD_cons_succ]
          rw [ih (first + 1) t' c (by omega) hc]
          congr 1
          omega

theorem addTriple_ne (stds : Nat → Nat → ℚ) (j : Nat) (b0 b1 b2 : ℚ) (a c : Nat)
    (h : a ≠ j) : addTriple stds j b0 b1 b2 a c = stds a c := by
  simp [addTriple, upd2, h]

theorem addTriple_self (stds : Nat → Nat → ℚ) (j : Nat) (b0 b1 b2 : ℚ) (c : Nat) (hc : c < 3) :
    addTriple stds j b0 b1 b2 j c =
      stds j c + (if c = 0 then b0 else if c = 1 then b1 else b2) := by
  interval_cases c <;> simp [addTriple, upd2]

theorem unpackLoop_not_mem (js : List Nat) :
    ∀ (stds : Nat → Nat → ℚ) (buf : List ℚ) (a c : Nat), a ∉ js →
      unpackLoop stds js buf a c = stds a c := by
  induction js with
  | nil => intro stds buf a c _; rfl
  | cons j rest ih =>
      intro stds buf a c h
      have hja : a ≠ j := fun hh => h (hh ▸ List.mem_cons_self j rest)
      have hrest : a ∉ rest := fun hh => h (List.mem_cons_of_mem j hh)
      simp only [unpackLoop]
      rw [ih _ _ _ _ hrest, addTriple_ne _ _ _ _ _ _ _ hja]

theorem getD_drop (l : List ℚ) (n m : Nat) (d : ℚ) :
    (l.drop n).getD m d = l.getD (n + m) d := by
  simp [List.getD, List.getElem?_drop]

theorem unpackLoop_getD (js : List Nat) :
    ∀ (stds : Nat → Nat → ℚ) (buf : List ℚ), js.Nodup →
      ∀ k, k < js.length → ∀ c, c < 3 →
        unpackLoop stds js buf (js.getD k 0) c =
          stds (js.getD k 0) c + buf.getD (3 * k + c) 0 := by
  induction js with
  | nil => intro stds buf _ k hk; exact absurd hk (Nat.not_lt_zero k)
  | cons j rest ih =>
      intro stds buf hnd k hk c hc
      have hmem : j ∉ rest ∧ rest.Nodup := by
        simpa [List.nodup_cons] using hnd
      match k with
      | 0 =>
          simp only [List.getD_cons_zero, unpackLoop]
          rw [unpackLoop_not_mem rest _ _ _ _ hmem.1]
          rw [addTriple_self _ _ _ _ _ _ hc]
          interval_cases c <;> simp
      | k' + 1 =>
          simp only [List.getD_cons_succ, unpackLoop]
          have hk' : k' < rest.length := by simpa using hk
          have htarget : rest.getD k' 0 ∈ rest := by
            rw [List.getD_eq_getElem rest 0 hk']
            exact List.getElem_mem hk'
          have hne : rest.getD k' 0 ≠ j := fun hh => hmem.1 (hh ▸ htarget)
          rw [ih _ _ hmem.2 k' hk' c hc]
          rw [addTriple_ne _ _ _ _ _ _ _ hne]
          have hdrop : (buf.drop 3).getD (3 * k' + c) 0 = buf.getD (3 * (k' + 1) + c) 0 := by
            rw [getD_drop]
            congr 1
            ring
          rw [hdrop]

/-! Lemmas about the zeroing loop. -/

theorem zeroCols_apply :
    ∀ (D : Nat) (row : Nat) (dd : Nat → Nat → ℚ) (r nl : Nat),
      zeroCols D row dd r nl = if r = row ∧ nl < D then 0 else dd r nl := by
  intro D
  induction D with
  | zero => intro row dd r nl; simp [zeroCols]
  | succ Dm ih =>
      intro row dd r nl
      rw [zeroCols, List.range_succ, List.foldl_append, List.foldl_cons, List.foldl_nil]
      have hz : (List.range Dm).foldl (fun d nl => upd2 d row nl 0) dd = zeroCols Dm row dd := rfl
      rw [hz, upd2]
      by_cases hr : r = row
      · subst hr
        by_cases hnl : nl = Dm
        · subst hnl; simp
        · rw [if_neg (by simp [hnl]), ih]
          by_cases hlt : nl < Dm
          · rw [if_pos ⟨rfl, hlt⟩, if_pos ⟨rfl, by omega⟩]
          · rw [if_neg (by simp [hlt]), if_neg (by intro h; exact absurd h.2 (by omega))]
      · rw [if_neg (by simp [hr]), ih, if_neg (by simp [hr]), if_neg (by simp [hr])]

theorem zeroAtomRow_stds (D : Nat) (s : SimState) (i a c : Nat) :
    (zeroAtomRow D s i).stds a c = if a = i ∧ c < 3 then 0 else s.stds a c := by
  simp only [zeroAtomRow, show List.range 3 = [0, 1, 2] from rfl, List.foldl_cons,
    List.foldl_nil]
  simp only [upd2]
  split_ifs with h1 h2 h3 h4 <;> first | rfl | omega

theorem zeroAtomRow_derv (D : Nat) (s : SimState) (i r nl : Nat) :
    (zeroAtomRow D s i).desc_derv r nl =
      if (r = i * 3 ∨ r = i * 3 + 1 ∨ r = i * 3 + 2) ∧ nl < D then 0
      else s.desc_derv r nl := by
  simp only [zeroAtomRow, show List.range 3 = [0, 1, 2] from rfl, List.foldl_cons,
    List.foldl_nil]
  simp only [zeroCols_apply]
  split_ifs <;> first | rfl | omega

theorem zeroAtomRow_stds_zero (D : Nat) (s : SimState) (i a c : Nat)
    (h : s.stds a c = 0) : (zeroAtomRow D s i).stds a c = 0 := by
  rw [zeroAtomRow_stds]
  split_ifs <;> simp [h]

theorem foldZero_stds_pres (D : Nat) (idxs : List Nat) :
    ∀ (s : SimState) (a c : Nat), s.stds a c = 0 →
      (idxs.foldl (zeroAtomRow D) s).stds a c = 0 := by
  induction idxs with
  | nil => intro s a c h; exact h
  | cons i rest ih =>
      intro s a c h
      exact ih _ _ _ (zeroAtomRow_stds_zero D s i a c h)

theorem foldZero_stds (D : Nat) (idxs : List Nat) :
    ∀ (s : SimState) (a c : Nat), c < 3 → a ∈ idxs →
      (idxs.foldl (zeroAtomRow D) s).stds a c = 0 := by
  induction idxs with
  | nil => intro s a c _ h; cases h
  | cons i rest ih =>
      intro s a c hc hmem
      rcases List.mem_cons.mp hmem with h | h
      · subst h
        rw [List.foldl_cons]
        apply foldZero_stds_pres
        rw [zeroAtomRow_stds, if_pos ⟨rfl, hc⟩]
      · exact ih _ _ _ hc h

theorem resetPhase_stds_zero (cfg : SimConfig) (s : SimState) (a c : Nat) (hc : c < 3)
    (h : ∃ ii, ii < ntotal cfg ∧ cfg.ilist ii = a) :
    (resetPhase cfg s).stds a c = 0 := by
  have hfold : resetPhase cfg s =
      ((List.range (ntotal cfg)).map cfg.ilist).foldl (zeroAtomRow cfg.n_descriptors) s := by
    rw [resetPhase, List.foldl_map]
  rw [hfold]
  apply foldZero_stds
  · exact hc
  · rcases h with ⟨ii, hii, hval⟩
    exact hval ▸ List.mem_map_of_mem cfg.ilist (List.mem_range.mpr hii)

/-! Lemmas showing which arrays each phase touches. -/

theorem accumNeighbor_stds (D : Nat) (B2 : Nat → Nat → ℚ) (i j n_count : Nat) (s : SimState) :
    (accumNeighbor D B2 i j n_count s).stds = s.stds := by
  rw [accumNeighbor]
  generalize List.range 3 = comps
  induction comps generalizing s with
  | nil => rfl
  | cons comp rest ih =>
      rw [List.foldl_cons, ih]
      generalize List.range D = nls
      induction nls generalizing s with
      | nil => rfl
      | cons nl rest2 ih2 => rw [List.foldl_cons, ih2]; rfl

theorem accumAtom_stds (cfg : SimConfig) (s : SimState) (i : Nat) :
    (accumAtom cfg s i).stds = s.stds := by
  rw [accumAtom]
  generalize cfg.firstneigh i = js
  suffices h : ∀ (st : SimState × Nat),
      ((js.foldl
        (fun (st : SimState × Nat) j =>
          if rsq cfg i j < cfg.cutoff * cfg.cutoff then
            (accumNeighbor cfg.n_descriptors (cfg.B2_env_dervs i) i j st.2 st.1, st.2 + 1)
          else st)
        st).1).stds = st.1.stds by
    exact h (s, 0)
  induction js with
  | nil => intro st; rfl
  | cons j rest ih =>
      intro st
      rw [List.foldl_cons]
      by_cases hcut : rsq cfg i j < cfg.cutoff * cfg.cutoff
      · rw [if_pos hcut, ih]
        exact accumNeighbor_stds _ _ _ _ _ _
      · rw [if_neg hcut, ih]

theorem accumPhase_stds (cfg : SimConfig) (s : SimState) :
    (accumPhase cfg s).stds = s.stds := by
  rw [accumPhase]
  generalize List.range cfg.inum = iis
  induction iis generalizing s with
  | nil => rfl
  | cons ii rest ih =>
      rw [List.foldl_cons, ih, accumAtom_stds]

/-! Lemmas about the contraction loops. -/

theorem evalPairComp_derv (cfg : SimConfig) (i : Nat) (p : Nat × Nat) (s : SimState) :
    (evalPairComp cfg i p s).desc_derv = s.desc_derv := by
  rfl

theorem evalPairComp_stds (cfg : SimConfig) (i : Nat) (p : Nat × Nat) (s : SimState)
    (a c : Nat) :
    (evalPairComp cfg i p s).stds a c =
      if a = i ∧ c < 3 then s.stds a c + evalTerm cfg s.desc_derv i c p.1 p.2
      else s.stds a c := by
  simp only [evalPairComp, show List.range 3 = [0, 1, 2] from rfl, List.foldl_cons,
    List.foldl_nil, setStds]
  simp only [upd2]
  by_cases ha : a = i
  · subst ha
    match c with
    | 0 => simp
    | 1 => simp
    | 2 => simp
    | c + 3 =>
        rw [if_neg (by omega), if_neg (by omega), if_neg (by omega),
          if_neg (by intro h; omega)]
  · rw [if_neg (by simp [ha]), if_neg (by simp [ha]), if_neg (by simp [ha]),
      if_neg (by simp [ha])]

theorem evalFold_stds (cfg : SimConfig) (i : Nat) (L : List (Nat × Nat)) :
    ∀ (s : SimState) (a c : Nat),
      ((L.foldl (fun s1 p => evalPairComp cfg i p s1) s)).stds a c =
        if a = i ∧ c < 3 then
          s.stds a c + (L.map (fun p => evalTerm cfg s.desc_derv i c p.1 p.2)).sum
        else s.stds a c := by
  induction L with
  | nil =>
      intro s a c
      simp only [List.foldl_nil, List.map_nil, List.sum_nil, add_zero]
      split_ifs <;> rfl
  | cons p L ih =>
      intro s a c
      rw [List.foldl_cons, ih]
      have hderv : (evalPairComp cfg i p s).desc_derv = s.desc_derv := evalPairComp_derv cfg i p s
      rw [hderv, evalPairComp_stds]
      by_cases h : a = i ∧ c < 3
      · rw [if_pos h, if_pos h, if_pos h, List.map_cons, List.sum_cons]
        ring
      · rw [if_neg h, if_neg h, if_neg h]

theorem evalFold_derv (cfg : SimConfig) (i : Nat) (L : List (Nat × Nat)) :
    ∀ s : SimState, ((L.foldl (fun s1 p => evalPairComp cfg i p s1) s)).desc_derv =
      s.desc_derv := by
  induction L with
  | nil => intro s; rfl
  | cons p L ih => intro s; rw [List.foldl_cons, ih, evalPairComp_derv]

theorem evalAtom_stds (cfg : SimConfig) (s : SimState) (i a c : Nat) :
    (evalAtom cfg s i).stds a c =
      if a = i ∧ c < 3 then
        s.stds a c +
          ((triPairs cfg.n_descriptors).map
            (fun p => evalTerm cfg s.desc_derv i c p.1 p.2)).sum
      else s.stds a c :=
  evalFold_stds cfg i (triPairs cfg.n_descriptors) s a c

theorem evalAtom_derv (cfg : SimConfig) (s : SimState) (i : Nat) :
    (evalAtom cfg s i).desc_derv = s.desc_derv :=
  evalFold_derv cfg i (triPairs cfg.n_descriptors) s

theorem evalAtomFold_derv (cfg : SimConfig) (l : List Nat) :
    ∀ s : SimState, (l.foldl (evalAtom cfg) s).desc_derv = s.desc_derv := by
  induction l with
  | nil => intro s; rfl
  | cons i rest ih => intro s; rw [List.foldl_cons, ih, evalAtom_derv]

theorem evalAtomFold_stds_not_mem (cfg : SimConfig) (l : List Nat) :
    ∀ (s : SimState) (a c : Nat), a ∉ l →
      (l.foldl (evalAtom cfg) s).stds a c = s.stds a c := by
  induction l with
  | nil => intro s a c _; rfl
  | cons i rest ih =>
      intro s a c h
      have hne : a ≠ i := fun hh => h (hh ▸ List.mem_cons_self i rest)
      have hrest : a ∉ rest := fun hh => h (List.mem_cons_of_mem i hh)
      rw [List.foldl_cons, ih _ _ _ hrest, evalAtom_stds, if_neg (by simp [hne])]

theorem evalAtomFold_split (cfg : SimConfig) (l1 l2 : List Nat) (i0 : Nat)
    (h1 : i0 ∉ l1) (h2 : i0 ∉ l2) (s : SimState) (c : Nat) (hc : c < 3) :
    ((l1 ++ i0 :: l2).foldl (evalAtom cfg) s).stds i0 c =
      s.stds i0 c +
        ((triPairs cfg.n_descriptors).map
          (fun p => evalTerm cfg s.desc_derv i0 c p.1 p.2)).sum := by
  rw [List.foldl_append, List.foldl_cons]
  rw [evalAtomFold_stds_not_mem cfg l2 _ _ _ h2]
  rw [evalAtom_stds, if_pos ⟨rfl, hc⟩]
  rw [evalAtomFold_stds_not_mem cfg l1 _ _ _ h1]
  rw [evalAtomFold_derv]

/-! Summation lemmas: the upper-triangular iteration as a nested finite sum,
and the equivalence with the full double sum for symmetric summands. -/

theorem list_range_map_sum (n : Nat) (f : Nat → ℚ) :
    ((List.range n).map f).sum = ∑ t ∈ Finset.range n, f t := by
  induction n with
  | zero => rfl
  | succ m ih =>
      rw [List.range_succ, List.map_append, List.sum_append, Finset.sum_range_succ, ih]
      simp

theorem sum_flatMap (l : List Nat) (F : Nat → List (Nat × Nat)) (g : Nat × Nat → ℚ) :
    ((l.flatMap F).map g).sum = (l.map (fun a => ((F a).map g).sum)).sum := by
  induction l with
  | nil => rfl
  | cons a t ih =>
      rw [List.flatMap_cons, List.map_append, List.sum_append, List.map_cons, List.sum_cons, ih]

theorem triPairs_map_sum (D : Nat) (g : Nat × Nat → ℚ) :
    ((triPairs D).map g).sum =
      ∑ i ∈ Finset.range D, ∑ j ∈ Finset.Ico i D, g (i, j) := by
  rw [triPairs, sum_flatMap]
  have hrow : ∀ i, ((rowPairs i D).map g).sum = ∑ j ∈ Finset.Ico i D, g (i, j) := by
    intro i
    rw [rowPairs, List.map_map, list_range_map_sum (D - i) (g ∘ fun t => (i, i + t)),
      Finset.sum_Ico_eq_sum_range]
    simp [Function.comp]
  have hmap : (List.range D).map (fun a => ((rowPairs a D).map g).sum) =
      (List.range D).map (fun a => ∑ j ∈ Finset.Ico a D, g (a, j)) := by
    exact List.map_congr_left (fun a _ => hrow a)
  rw [hmap, list_range_map_sum]

theorem tri_weighted_full (D : Nat) (F : Nat → Nat → ℚ) (hsym : ∀ i j, F i j = F j i) :
    (∑ i ∈ Finset.range D, ∑ j ∈ Finset.Ico i D, (if i = j then F i j else F i j * 2)) =
      ∑ i ∈ Finset.range D, ∑ j ∈ Finset.range D, F i j := by
  induction D with
  | zero => rfl
  | succ Dm ih =>
      have hL : ∀ i, i ≤ Dm →
          (∑ j ∈ Finset.Ico i (Dm + 1), (if i = j then F i j else F i j * 2)) =
            (∑ j ∈ Finset.Ico i Dm, (if i = j then F i j else F i j * 2)) +
              (if i = Dm then F i Dm else F i Dm * 2) := by
        intro i hi
        rw [Finset.sum_Ico_succ_top hi]
      rw [Finset.sum_range_succ]
      have hrows : (∑ i ∈ Finset.range Dm, ∑ j ∈ Finset.Ico i (Dm + 1),
          (if i = j then F i j else F i j * 2)) =
          (∑ i ∈ Finset.range Dm, ∑ j ∈ Finset.Ico i Dm,
            (if i = j then F i j else F i j * 2)) +
            ∑ i ∈ Finset.range Dm, F i Dm * 2 := by
        rw [← Finset.sum_add_distrib]
        apply Finset.sum_congr rfl
        intro i hi
        have hiDm : i < Dm := Finset.mem_range.mp hi
        rw [hL i (by omega), if_neg (by omega)]
      have hlast : (∑ j ∈ Finset.Ico Dm (Dm + 1), (if Dm = j then F Dm j else F Dm j * 2)) =
          F Dm Dm := by
        rw [Finset.sum_Ico_succ_top (le_refl Dm), Finset.Ico_self, Finset.sum_empty,
          zero_add, if_pos rfl]
      rw [hrows, hlast, ih]
      have hR : (∑ i ∈ Finset.range (Dm + 1), ∑ j ∈ Finset.range (Dm + 1), F i j) =
          (∑ i ∈ Finset.range Dm, ∑ j ∈ Finset.range Dm, F i j) +
            (∑ i ∈ Finset.range Dm, F i Dm) + (∑ j ∈ Finset.range Dm, F Dm j) + F Dm Dm := by
        rw [Finset.sum_range_succ]
        have hin : ∀ i, (∑ j ∈ Finset.range (Dm + 1), F i j) =
            (∑ j ∈ Finset.range Dm, F i j) + F i Dm := fun i => Finset.sum_range_succ (F i) Dm
        rw [Finset.sum_congr rfl (fun i _ => hin i), Finset.sum_add_distrib,
          Finset.sum_range_succ]
        ring
      rw [hR]
      have hswap : (∑ j ∈ Finset.range Dm, F Dm j) = ∑ i ∈ Finset.range Dm, F i Dm :=
        Finset.sum_congr rfl (fun j _ => hsym Dm j)
      rw [hswap]
      have hcomb : (∑ i ∈ Finset.range Dm, F i Dm * 2) =
          (∑ i ∈ Finset.range Dm, F i Dm) + ∑ i ∈ Finset.range Dm, F i Dm := by
        rw [← Finset.sum_add_distrib]
        exact Finset.sum_congr rfl (fun i _ => by ring)
      rw [hcomb]
      ring

/-! Row sums of the derivative table and their preservation by the
accumulation loop (the Newton third-law pairing of lines 165 and 166). -/

/-- Sum of one fixed column `nl` and component `c` of the derivative table
over all atoms `a < A`. -/
def rowSum (A : Nat) (dd : Nat → Nat → ℚ) (c nl : Nat) : ℚ :=
  ∑ a ∈ Finset.range A, dd (a * 3 + c) nl

theorem pairUpdate_self_eq (dd : Nat → Nat → ℚ) (r nl : Nat) (v : ℚ) (x y : Nat) :
    pairUpdate dd r r nl v x y = dd x y := by
  simp only [pairUpdate]
  rw [upd2_same]
  by_cases h : x = r ∧ y = nl
  · rcases h with ⟨hx, hy⟩
    subst hx; subst hy
    rw [upd2_same]
    ring
  · rw [upd2_of_ne _ _ _ _ _ _ h, upd2_of_ne _ _ _ _ _ _ h]

theorem pairUpdate_rowSum (A : Nat) (dd : Nat → Nat → ℚ) (i j comp nl : Nat) (v : ℚ)
    (c0 n0 : Nat) (hi : i < A) (hj : j < A) (hcomp : comp < 3) (hc0 : c0 < 3) :
    rowSum A (pairUpdate dd (i * 3 + comp) (j * 3 + comp) nl v) c0 n0 =
      rowSum A dd c0 n0 := by
  by_cases htouch : comp = c0 ∧ nl = n0
  · rcases htouch with ⟨hce, hne⟩
    subst hce; subst hne
    by_cases hij : i = j
    · subst hij
      unfold rowSum
      exact Finset.sum_congr rfl (fun a _ => pairUpdate_self_eq dd _ _ v _ _)
    · have hrr : ¬(j * 3 + comp = i * 3 + comp ∧ nl = nl) := by
        intro h
        omega
      have hpoint : ∀ a : Nat,
          pairUpdate dd (i * 3 + comp) (j * 3 + comp) nl v (a * 3 + comp) nl =
            dd (a * 3 + comp) nl + (if a = i then v else 0) - (if a = j then v else 0) := by
        intro a
        simp only [pairUpdate]
        rw [upd2_of_ne _ _ _ _ _ _ hrr]
        by_cases haj : a = j
        · subst haj
          rw [upd2_same, if_neg (fun h => hij (h.symm)), if_pos rfl]
          ring
        · rw [upd2_of_ne _ _ _ _ _ _ (fun h => haj (by omega))]
          by_cases hai : a = i
          · subst hai
            rw [upd2_same, if_pos rfl, if_neg haj]
            ring
          · rw [upd2_of_ne _ _ _ _ _ _ (fun h => hai (by omega)), if_neg hai, if_neg haj]
            ring
      unfold rowSum
      rw [Finset.sum_congr rfl (fun a _ => hpoint a)]
      rw [Finset.sum_sub_distrib, Finset.sum_add_distrib]
      rw [Finset.sum_ite_eq' (Finset.range A) i (fun _ => v),
        Finset.sum_ite_eq' (Finset.range A) j (fun _ => v)]
      rw [if_pos (Finset.mem_range.mpr hi), if_pos (Finset.mem_range.mpr hj)]
      ring
  · have huntouched : ∀ a : Nat,
        pairUpdate dd (i * 3 + comp) (j * 3 + comp) nl v (a * 3 + c0) n0 =
          dd (a * 3 + c0) n0 := by
      intro a
      have h1 : ¬(a * 3 + c0 = j * 3 + comp ∧ n0 = nl) := by
        intro h
        exact htouch ⟨by omega, by omega⟩
      have h2 : ¬(a * 3 + c0 = i * 3 + comp ∧ n0 = nl) := by
        intro h
        exact htouch ⟨by omega, by omega⟩
      simp only [pairUpdate]
      rw [upd2_of_ne _ _ _ _ _ _ h1, upd2_of_ne _ _ _ _ _ _ h2]
    unfold rowSum
    exact Finset.sum_congr rfl (fun a _ => huntouched a)

theorem accumNeighbor_rowSum (A D : Nat) (B2 : Nat → Nat → ℚ) (i j n_count : Nat)
    (s : SimState) (c0 n0 : Nat) (hi : i < A) (hj : j < A) (hc0 : c0 < 3) :
    rowSum A (accumNeighbor D B2 i j n_count s).desc_derv c0 n0 =
      rowSum A s.desc_derv c0 n0 := by
  rw [accumNeighbor]
  have hinner : ∀ (comp : Nat), comp < 3 → ∀ (nls : List Nat) (s1 : SimState),
      rowSum A ((nls.foldl
        (fun s2 nl =>
          setDerv s2
            (pairUpdate s2.desc_derv (i * 3 + comp) (j * 3 + comp) nl
              (B2 (n_count * 3 + comp) nl)))
        s1).desc_derv) c0 n0 = rowSum A s1.desc_derv c0 n0 := by
    intro comp hcomp nls
    induction nls with
    | nil => intro s1; rfl
    | cons nl rest ih =>
        intro s1
        rw [List.foldl_cons, ih]
        exact pairUpdate_rowSum A s1.desc_derv i j comp nl _ c0 n0 hi hj hcomp hc0
  have houter : ∀ (comps : List Nat), (∀ comp ∈ comps, comp < 3) → ∀ s1 : SimState,
      rowSum A ((comps.foldl
        (fun s1 comp =>
          (List.range D).foldl
            (fun s2 nl =>
              setDerv s2
                (pairUpdate s2.desc_derv (i * 3 + comp) (j * 3 + comp) nl
                  (B2 (n_count * 3 + comp) nl)))
            s1)
        s1).desc_derv) c0 n0 = rowSum A s1.desc_derv c0 n0 := by
    intro comps
    induction comps with
    | nil => intro _ s1; rfl
    | cons comp rest ih =>
        intro hmem s1
        rw [List.foldl_cons, ih (fun c hc => hmem c (List.mem_cons_of_mem comp hc))]
        exact hinner comp (hmem comp (List.mem_cons_self comp rest)) (List.range D) s1
  exact houter (List.range 3) (fun c hc => List.mem_range.mp hc) s

theorem accumAtom_rowSum (cfg : SimConfig) (A : Nat) (s : SimState) (i : Nat)
    (c0 n0 : Nat) (hi : i < A) (hnb : ∀ j ∈ cfg.firstneigh i, j < A) (hc0 : c0 < 3) :
    rowSum A (accumAtom cfg s i).desc_derv c0 n0 = rowSum A s.desc_derv c0 n0 := by
  rw [accumAtom]
  suffices h : ∀ (js : List Nat), (∀ j ∈ js, j < A) → ∀ (st : SimState × Nat),
      rowSum A ((js.foldl
        (fun (st : SimState × Nat) j =>
          if rsq cfg i j < cfg.cutoff * cfg.cutoff then
            (accumNeighbor cfg.n_descriptors (cfg.B2_env_dervs i) i j st.2 st.1, st.2 + 1)
          else st)
        st).1.desc_derv) c0 n0 = rowSum A st.1.desc_derv c0 n0 by
    exact h (cfg.firstneigh i) hnb (s, 0)
  intro js
  induction js with
  | nil => intro _ st; rfl
  | cons j rest ih =>
      intro hmem st
      rw [List.foldl_cons]
      by_cases hcut : rsq cfg i j < cfg.cutoff * cfg.cutoff
      · rw [if_pos hcut, ih (fun a ha => hmem a (List.mem_cons_of_mem j ha))]
        exact accumNeighbor_rowSum A cfg.n_descriptors _ i j _ _ c0 n0 hi
          (hmem j (List.mem_cons_self j rest)) hc0
      · rw [if_neg hcut, ih (fun a ha => hmem a (List.mem_cons_of_mem j ha))]

theorem accumPhase_rowSum (cfg : SimConfig) (A : Nat) (s : SimState) (c0 n0 : Nat)
    (hc0 : c0 < 3)
    (hil : ∀ ii, ii < cfg.inum → cfg.ilist ii < A)
    (hnb : ∀ ii, ii < cfg.inum → ∀ j ∈ cfg.firstneigh (cfg.ilist ii), j < A) :
    rowSum A (accumPhase cfg s).desc_derv c0 n0 = rowSum A s.desc_derv c0 n0 := by
  rw [accumPhase]
  suffices h : ∀ (iis : List Nat), (∀ ii ∈ iis, ii < cfg.inum) → ∀ s1 : SimState,
      rowSum A ((iis.foldl (fun st ii => accumAtom cfg st (cfg.ilist ii)) s1).desc_derv)
        c0 n0 = rowSum A s1.desc_derv c0 n0 by
    exact h (List.range cfg.inum) (fun ii hii => List.mem_range.mp hii) s
  intro iis
  induction iis with
  | nil => intro _ s1; rfl
  | cons ii rest ih =>
      intro hmem s1
      rw [List.foldl_cons, ih (fun a ha => hmem a (List.mem_cons_of_mem ii ha))]
      have hii : ii < cfg.inum := hmem ii (List.mem_cons_self ii rest)
      exact accumAtom_rowSum cfg A s1 (cfg.ilist ii) c0 n0 (hil ii hii) (hnb ii hii) hc0

/-! Structure of the upper-triangular iteration order. -/

theorem rowPairs_mem (i D : Nat) (p : Nat × Nat) (h : p ∈ rowPairs i D) :
    p.1 = i ∧ i ≤ p.2 ∧ p.2 < D := by
  rw [rowPairs] at h
  rcases List.mem_map.mp h with ⟨t, ht, hp⟩
  have htlt : t < D - i := List.mem_range.mp ht
  subst hp
  exact ⟨rfl, by omega, by omega⟩

theorem triPairs_mem (D : Nat) (p : Nat × Nat) (h : p ∈ triPairs D) :
    p.1 ≤ p.2 ∧ p.2 < D := by
  rw [triPairs] at h
  rcases List.mem_flatMap.mp h with ⟨i, _, hp⟩
  have hm := rowPairs_mem i D p hp
  omega

theorem rowPairs_length (i D : Nat) : (rowPairs i D).length = D - i := by
  rw [rowPairs, List.length_map, List.length_range]

theorem triPairs_decomp (D i j : Nat) (hij : i ≤ j) (hj : j < D) :
    ∃ pre post : List (Nat × Nat),
      triPairs D = pre ++ (i, j) :: post ∧
      pre.length = triPos D i j ∧
      (i, j) ∉ post ∧ (j, i) ∉ post := by
  have hrangeD : List.range D =
      List.range i ++ [i] ++ (List.range (D - i - 1)).map (fun a => i + 1 + a) := by
    have h2 := List.range_add (i + 1) (D - i - 1)
    rw [show (i + 1) + (D - i - 1) = D from by omega] at h2
    rw [h2, List.range_succ]
  have hflat : triPairs D =
      (List.range i).flatMap (fun a => rowPairs a D) ++ rowPairs i D ++
        ((List.range (D - i - 1)).map (fun a => i + 1 + a)).flatMap
          (fun a => rowPairs a D) := by
    rw [triPairs, hrangeD, List.flatMap_append, List.flatMap_append]
    simp [List.flatMap_cons]
  have hrow : rowPairs i D =
      (List.range (j - i)).map (fun t => (i, i + t)) ++
        (i, j) :: (List.range (D - j - 1)).map (fun t => (i, j + 1 + t)) := by
    rw [rowPairs]
    have h4 := List.range_add (j - i + 1) (D - j - 1)
    rw [show (j - i + 1) + (D - j - 1) = D - i from by omega] at h4
    rw [h4, List.range_succ, List.map_append, List.map_append, List.append_assoc]
    congr 1
    simp only [List.map_cons, List.map_nil, List.singleton_append, List.map_map]
    rw [show i + (j - i) = j from by omega]
    congr 1
    apply List.map_congr_left
    intro t _
    simp only [Function.comp]
    rw [show i + (j - i + 1 + t) = j + 1 + t from by omega]
  refine ⟨(List.range i).flatMap (fun a => rowPairs a D) ++
      (List.range (j - i)).map (fun t => (i, i + t)),
    (List.range (D - j - 1)).map (fun t => (i, j + 1 + t)) ++
      ((List.range (D - i - 1)).map (fun a => i + 1 + a)).flatMap
        (fun a => rowPairs a D), ?_, ?_, ?_, ?_⟩
  · rw [hflat, hrow]
    simp [List.append_assoc]
  · rw [List.length_append, List.length_flatMap, List.length_map, List.length_range, triPos]
    congr 1
    apply congrArg List.sum
    apply List.map_congr_left
    intro a _
    exact rowPairs_length a D
  · intro hmem
    rcases List.mem_append.mp hmem with h | h
    · rcases List.mem_map.mp h with ⟨t, _, hp⟩
      have := congrArg Prod.snd hp
      simp at this
      omega
    · rcases List.mem_flatMap.mp h with ⟨a, ha, hp⟩
      rcases List.mem_map.mp ha with ⟨x, _, hx⟩
      have hm := rowPairs_mem a D (i, j) hp
      omega
  · intro hmem
    rcases List.mem_append.mp hmem with h | h
    · rcases List.mem_map.mp h with ⟨t, _, hp⟩
      have h1 := congrArg Prod.fst hp
      have h2 := congrArg Prod.snd hp
      simp at h1 h2
      omega
    · rcases List.mem_flatMap.mp h with ⟨a, ha, hp⟩
      rcases List.mem_map.mp ha with ⟨x, _, hx⟩
      have hm := rowPairs_mem a D (j, i) hp
      simp at hm
      omega

/-! The matrix fill of `read_file`: characterization of the entries. -/

theorem betaStep_counter (beta : Nat → ℚ) (st : (Nat → Nat → ℚ) × Nat) (p : Nat × Nat) :
    (betaStep beta st p).2 = st.2 + 1 := by
  rw [betaStep]
  split_ifs <;> rfl

theorem betaFold_counter (beta : Nat → ℚ) (L : List (Nat × Nat)) :
    ∀ st : (Nat → Nat → ℚ) × Nat,
      (L.foldl (betaStep beta) st).2 = st.2 + L.length := by
  induction L with
  | nil => intro st; rfl
  | cons p rest ih =>
      intro st
      rw [List.foldl_cons, ih, betaStep_counter, List.length_cons]
      omega

theorem betaStep_untouched (beta : Nat → ℚ) (st : (Nat → Nat → ℚ) × Nat) (p : Nat × Nat)
    (a b : Nat) (h1 : ¬(p.1 = a ∧ p.2 = b)) (h2 : ¬(p.1 = b ∧ p.2 = a)) :
    (betaStep beta st p).1 a b = st.1 a b := by
  rw [betaStep]
  split_ifs with hd
  · exact upd2_of_ne _ _ _ _ _ _ (fun h => h1 ⟨h.1.symm, h.2.symm⟩)
  · dsimp only
    rw [upd2_of_ne _ _ _ _ _ _ (fun h => h2 ⟨h.2.symm, h.1.symm⟩),
      upd2_of_ne _ _ _ _ _ _ (fun h => h1 ⟨h.1.symm, h.2.symm⟩)]

theorem betaFold_untouched (beta : Nat → ℚ) (L : List (Nat × Nat)) :
    ∀ (st : (Nat → Nat → ℚ) × Nat) (a b : Nat),
      (∀ p ∈ L, ¬(p.1 = a ∧ p.2 = b) ∧ ¬(p.1 = b ∧ p.2 = a)) →
      (L.foldl (betaStep beta) st).1 a b = st.1 a b := by
  induction L with
  | nil => intro st a b _; rfl
  | cons p rest ih =>
      intro st a b h
      rw [List.foldl_cons, ih _ _ _ (fun q hq => h q (List.mem_cons_of_mem p hq))]
      have hp := h p (List.mem_cons_self p rest)
      exact betaStep_untouched beta st p a b hp.1 hp.2

theorem fillSpecies_counter (beta : Nat → ℚ) (D c0 : Nat) :
    (fillSpecies beta D c0).2 = c0 + (triPairs D).length :=
  betaFold_counter beta (triPairs D) _

theorem fillSpecies_entries (beta : Nat → ℚ) (D c0 i j : Nat) (hij : i ≤ j) (hj : j < D) :
    (fillSpecies beta D c0).1 i j =
      (if i = j then beta (c0 + triPos D i j) else beta (c0 + triPos D i j) / 2) ∧
    (fillSpecies beta D c0).1 j i =
      (if i = j then beta (c0 + triPos D i j) else beta (c0 + triPos D i j) / 2) := by
  rcases triPairs_decomp D i j hij hj with ⟨pre, post, hdec, hlen, hnp1, hnp2⟩
  rw [fillSpecies, hdec, List.foldl_append, List.foldl_cons]
  have hpost1 : ∀ st : (Nat → Nat → ℚ) × Nat,
      (post.foldl (betaStep beta) st).1 i j = st.1 i j := by
    intro st
    apply betaFold_untouched
    intro p hp
    constructor
    · rintro ⟨h1, h2⟩
      apply hnp1
      have hpij : p = (i, j) := by rw [← h1, ← h2]
      exact hpij ▸ hp
    · rintro ⟨h1, h2⟩
      apply hnp2
      have hpji : p = (j, i) := by rw [← h1, ← h2]
      exact hpji ▸ hp
  have hpost2 : ∀ st : (Nat → Nat → ℚ) × Nat,
      (post.foldl (betaStep beta) st).1 j i = st.1 j i := by
    intro st
    apply betaFold_untouched
    intro p hp
    constructor
    · rintro ⟨h1, h2⟩
      apply hnp2
      have hpji : p = (j, i) := by rw [← h1, ← h2]
      exact hpji ▸ hp
    · rintro ⟨h1, h2⟩
      apply hnp1
      have hpij : p = (i, j) := by rw [← h1, ← h2]
      exact hpij ▸ hp
  have hcnt : (pre.foldl (betaStep beta) (fun _ _ => 0, c0)).2 = c0 + triPos D i j := by
    rw [betaFold_counter, hlen]
  constructor
  · rw [hpost1 _]
    rw [betaStep]
    by_cases hd : i = j
    · rw [if_pos (show ((i : Nat), j).1 = ((i : Nat), j).2 from hd), if_pos hd]
      simp only
      rw [hcnt, upd2_same]
    · rw [if_neg (show ¬((i : Nat), j).1 = ((i : Nat), j).2 from hd), if_neg hd]
      simp only
      rw [hcnt, upd2_of_ne _ _ _ _ _ _ (fun h => hd (by omega)), upd2_same]
  · rw [hpost2 _]
    rw [betaStep]
    by_cases hd : i = j
    · subst hd
      rw [if_pos rfl, if_pos rfl]
      simp only
      rw [hcnt, upd2_same]
    · rw [if_neg (show ¬((i : Nat), j).1 = ((i : Nat), j).2 from hd), if_neg hd]
      simp only
      rw [hcnt, upd2_same]

theorem fillSpecies_outside (beta : Nat → ℚ) (D c0 a b : Nat) (h : D ≤ a ∨ D ≤ b) :
    (fillSpecies beta D c0).1 a b = 0 := by
  rw [fillSpecies]
  rw [betaFold_untouched]
  intro p hp
  have hm := triPairs_mem D p hp
  constructor
  · intro hc; omega
  · intro hc; omega

theorem fillSpecies_symm (beta : Nat → ℚ) (D c0 : Nat) (a b : Nat) :
    (fillSpecies beta D c0).1 a b = (fillSpecies beta D c0).1 b a := by
  by_cases ha : a < D
  · by_cases hb : b < D
    · rcases le_or_lt a b with hab | hab
      · have h := fillSpecies_entries beta D c0 a b hab hb
        rw [h.1, h.2]
      · have h := fillSpecies_entries beta D c0 b a (by omega) ha
        rw [h.1, h.2]
    · rw [fillSpecies_outside beta D c0 a b (Or.inr (by omega)),
        fillSpecies_outside beta D c0 b a (Or.inl (by omega))]
  · rw [fillSpecies_outside beta D c0 a b (Or.inl (by omega)),
      fillSpecies_outside beta D c0 b a (Or.inr (by omega))]

theorem fillAll_spec (beta : Nat → ℚ) (D : Nat) :
    ∀ n : Nat,
      ((List.range n).foldl
        (fun (st : List (Nat → Nat → ℚ) × Nat) _k =>
          let r := fillSpecies beta D st.2
          (st.1 ++ [r.1], r.2))
        ([], 0)).2 = n * (triPairs D).length ∧
      ((List.range n).foldl
        (fun (st : List (Nat → Nat → ℚ) × Nat) _k =>
          let r := fillSpecies beta D st.2
          (st.1 ++ [r.1], r.2))
        ([], 0)).1.length = n ∧
      ∀ k, k < n →
        ((List.range n).foldl
          (fun (st : List (Nat → Nat → ℚ) × Nat) _k =>
            let r := fillSpecies beta D st.2
            (st.1 ++ [r.1], r.2))
          ([], 0)).1.getD k (fun _ _ => 0) =
          (fillSpecies beta D (k * (triPairs D).length)).1 := by
  intro n
  induction n with
  | zero => exact ⟨by simp, rfl, fun k hk => absurd hk (Nat.not_lt_zero k)⟩
  | succ m ih =>
      rw [List.range_succ, List.foldl_append, List.foldl_cons, List.foldl_nil] at *
      set st := (List.range m).foldl
        (fun (st : List (Nat → Nat → ℚ) × Nat) _k =>
          let r := fillSpecies beta D st.2
          (st.1 ++ [r.1], r.2))
        (([] : List (Nat → Nat → ℚ)), 0) with hst
      rcases ih with ⟨hcnt, hlen, hget⟩
      refine ⟨?_, ?_, ?_⟩
      · show (fillSpecies beta D st.2).2 = (m + 1) * (triPairs D).length
        rw [fillSpecies_counter, hcnt]
        ring
      · show (st.1 ++ [(fillSpecies beta D st.2).1]).length = m + 1
        rw [List.length_append, hlen]
        rfl
      · intro k hk
        show (st.1 ++ [(fillSpecies beta D st.2).1]).getD k (fun _ _ => 0) =
          (fillSpecies beta D (k * (triPairs D).length)).1
        rcases Nat.lt_or_ge k m with hkm | hkm
        · have hbound : k < st.1.length := by rw [hlen]; exact hkm
          have happ : (st.1 ++ [(fillSpecies beta D st.2).1]).getD k (fun _ _ => 0) =
              st.1.getD k (fun _ _ => 0) := by
            simp [List.getD, List.getElem?_append, hbound]
          rw [happ]
          exact hget k hkm
        · have hkm2 : k = m := by omega
          subst hkm2
          have happ : (st.1 ++ [(fillSpecies beta D st.2).1]).getD st.1.length
              (fun _ _ => 0) = (fillSpecies beta D st.2).1 := by
            simp [List.getD, List.getElem?_append]
          rw [← hlen] at hcnt ⊢
          rw [happ, hcnt]

theorem fillAll_length (beta : Nat → ℚ) (n D : Nat) : (fillAll beta n D).length = n :=
  (fillAll_spec beta D n).2.1

theorem fillAll_getD (beta : Nat → ℚ) (n D k : Nat) (hk : k < n) :
    (fillAll beta n D).getD k (fun _ _ => 0) =
      (fillSpecies beta D (k * (triPairs D).length)).1 :=
  (fillAll_spec beta D n).2.2 k hk

/-! Inversion of `read_file`. -/

theorem read_file_ok_inv (f : PotFile) (pd : PotData) (h : read_file f = Except.ok pd) :
    pd.n_species = f.n_species ∧
    pd.n_descriptors =
      ((f.n_max * f.n_species) * (f.n_max * f.n_species + 1) / 2) * (f.l_max + 1) ∧
    pd.beta = applyWrites (fun _ => 0) (grab (f.beta_size * f.n_species) f.beta_lines) ∧
    pd.beta_matrices = fillAll pd.beta f.n_species pd.n_descriptors ∧
    pd.basis_function =
      (if f.radial_string = "chebyshev" then some RadialBasis.chebyshev else none) ∧
    pd.radial_hyps = (if f.radial_string = "chebyshev" then [0, f.cutoff] else []) ∧
    pd.n_descriptors * (pd.n_descriptors + 1) / 2 = f.beta_size := by
  simp only [read_file] at h
  by_cases hchk : (f.n_max * f.n_species) * (f.n_max * f.n_species + 1) / 2 * (f.l_max + 1) *
      ((f.n_max * f.n_species) * (f.n_max * f.n_species + 1) / 2 * (f.l_max + 1) + 1) / 2 ≠
    f.beta_size
  · rw [if_pos hchk] at h
    cases h
  · rw [if_neg hchk] at h
    have hpd := (Except.ok.injEq _ _).mp h
    subst hpd
    push_neg at hchk
    exact ⟨rfl, rfl, rfl, rfl, rfl, rfl, hchk⟩

theorem read_file_of_check (f : PotFile)
    (hchk : (((f.n_max * f.n_species) * (f.n_max * f.n_species + 1) / 2) * (f.l_max + 1)) *
        ((((f.n_max * f.n_species) * (f.n_max * f.n_species + 1) / 2) * (f.l_max + 1)) + 1) / 2 =
      f.beta_size) :
    ∃ pd, read_file f = Except.ok pd ∧
      pd.n_descriptors =
        ((f.n_max * f.n_species) * (f.n_max * f.n_species + 1) / 2) * (f.l_max + 1) ∧
      pd.basis_function =
        (if f.radial_string = "chebyshev" then some RadialBasis.chebyshev else none) := by
  rw [read_file]
  rw [if_neg (by simp [hchk])]
  exact ⟨_, rfl, rfl, rfl⟩

theorem read_file_of_check_ne (f : PotFile)
    (hchk : (((f.n_max * f.n_species) * (f.n_max * f.n_species + 1) / 2) * (f.l_max + 1)) *
        ((((f.n_max * f.n_species) * (f.n_max * f.n_species + 1) / 2) * (f.l_max + 1)) + 1) / 2 ≠
      f.beta_size) :
    read_file f = Except.error "Beta size does not match the number of descriptors." := by
  rw [read_file, if_pos hchk]

/-! Splitting an index range at one position, with the two remaining parts. -/

theorem range_split (n k : Nat) (hk : k < n) :
    List.range n = List.range k ++ [k] ++ (List.range (n - k - 1)).map (fun a => k + 1 + a) := by
  have h2 := List.range_add (k + 1) (n - k - 1)
  rw [show (k + 1) + (n - k - 1) = n from by omega] at h2
  rw [h2, List.range_succ]

/-! Lemmas about `grab`. -/

theorem lineWrites_length (line : List ℚ) : ∀ i, (lineWrites i line).length = line.length := by
  induction line with
  | nil => intro i; rfl
  | cons v rest ih => intro i; simp [lineWrites, ih]

theorem lineWrites_append (l1 l2 : List ℚ) :
    ∀ i, lineWrites i (l1 ++ l2) = lineWrites i l1 ++ lineWrites (i + l1.length) l2 := by
  induction l1 with
  | nil => intro i; simp [lineWrites]
  | cons v rest ih =>
      intro i
      have harith : i + 1 + rest.length = i + (rest.length + 1) := by omega
      simp only [List.cons_append, lineWrites, List.append_eq, ih (i + 1), List.length_cons,
        harith]

theorem lineWrites_mem (line : List ℚ) :
    ∀ i w, w ∈ lineWrites i line → i ≤ w.1 ∧ w.1 < i + line.length := by
  induction line with
  | nil => intro i w h; cases h
  | cons v rest ih =>
      intro i w h
      rcases List.mem_cons.mp h with h | h
      · subst h
        simp only [List.length_cons]
        omega
      · have := ih (i + 1) w h
        simp only [List.length_cons]
        omega

theorem grabGo_exact (lines : List (List ℚ)) :
    ∀ i n, (∀ l ∈ lines, l ≠ []) → i + (lines.map List.length).sum = n →
      grabGo n i lines = lineWrites i lines.flatten := by
  induction lines with
  | nil => intro i n _ _; rfl
  | cons line rest ih =>
      intro i n hne htot
      have hlen : 0 < line.length :=
        List.length_pos.mpr (hne line (List.mem_cons_self line rest))
      have hlt : i < n := by
        simp only [List.map_cons, List.sum_cons] at htot
        omega
      have hrest : ∀ l ∈ rest, l ≠ [] := fun l hl => hne l (List.mem_cons_of_mem line hl)
      have htot' : (i + line.length) + (rest.map List.length).sum = n := by
        simp only [List.map_cons, List.sum_cons] at htot
        omega
      simp only [grabGo, if_pos hlt, ih (i + line.length) n hrest htot']
      rw [show (line :: rest).flatten = line ++ rest.flatten from rfl,
        lineWrites_append]

/-- Exact-count behavior of `grab`: when the lines hold exactly `n` values in
total (and no line is empty), the writes are exactly the flattened values at
indices `0, 1, ..., n - 1`, in order. -/
theorem grab_exact (n : Nat) (lines : List (List ℚ)) (hne : ∀ l ∈ lines, l ≠ [])
    (htot : (lines.map List.length).sum = n) :
    grab n lines = lineWrites 0 lines.flatten ∧
      (grab n lines).length = n ∧
      ∀ w ∈ grab n lines, w.1 < n := by
  have h1 : grab n lines = lineWrites 0 lines.flatten :=
    grabGo_exact lines 0 n hne (by omega)
  have hflat : lines.flatten.length = n := by
    rw [List.length_flatten]
    exact htot
  refine ⟨h1, ?_, ?_⟩
  · rw [h1, lineWrites_length, hflat]
  · intro w hw
    rw [h1] at hw
    have := lineWrites_mem lines.flatten 0 w hw
    omega

/-! Claim theorems. -/

/-- C1: for every valid potential file, the per-species covariance matrix
reconstructed by `read_file` satisfies, for each species `k` and each pair
`(i, j)` consumed in upper-triangular order (the value consumed for `(i, j)`
sits at offset `k * (triPairs D).length + triPos D i j` of the parsed beta
array): on the diagonal the matrix holds the raw stored value exactly, and
off the diagonal both `(i, j)` and `(j, i)` hold exactly half the raw stored
value; consequently the matrix is symmetric at every pair of indices. -/
theorem claim_C1_covariance_matrix (f : PotFile) (pd : PotData)
    (h : read_file f = Except.ok pd) (k : Nat) (hk : k < f.n_species) :
    (∀ i j, i ≤ j → j < pd.n_descriptors →
      (i = j → pd.beta_matrices.getD k (fun _ _ => 0) i j =
        pd.beta (k * (triPairs pd.n_descriptors).length + triPos pd.n_descriptors i j)) ∧
      (i ≠ j → pd.beta_matrices.getD k (fun _ _ => 0) i j =
          pd.beta (k * (triPairs pd.n_descriptors).length + triPos pd.n_descriptors i j) / 2 ∧
        pd.beta_matrices.getD k (fun _ _ => 0) j i =
          pd.beta (k * (triPairs pd.n_descriptors).length + triPos pd.n_descriptors i j) / 2)) ∧
    (∀ i j, pd.beta_matrices.getD k (fun _ _ => 0) i j =
      pd.beta_matrices.getD k (fun _ _ => 0) j i) := by
  have inv := read_file_ok_inv f pd h
  have hmats : pd.beta_matrices = fillAll pd.beta f.n_species pd.n_descriptors :=
    inv.2.2.2.1
  have hget : pd.beta_matrices.getD k (fun _ _ => 0) =
      (fillSpecies pd.beta pd.n_descriptors (k * (triPairs pd.n_descriptors).length)).1 := by
    rw [hmats]
    exact fillAll_getD pd.beta f.n_species pd.n_descriptors k hk
  constructor
  · intro i j hij hj
    have hent := fillSpecies_entries pd.beta pd.n_descriptors
      (k * (triPairs pd.n_descriptors).length) i j hij hj
    constructor
    · intro hd
      rw [hget, hent.1, if_pos hd]
    · intro hd
      exact ⟨by rw [hget, hent.1, if_neg hd], by rw [hget, hent.2, if_neg hd]⟩
  · intro i j
    rw [hget]
    exact fillSpecies_symm pd.beta pd.n_descriptors _ i j

/-- A small valid potential file: one species, `n_max = 1`, `l_max = 0`, so
one descriptor and `beta_size = 1`, with a single beta value 4. -/
def fC1 : PotFile :=
  { radial_string := "chebyshev"
    n_species := 1
    n_max := 1
    l_max := 0
    beta_size := 1
    cutoff_string := "quadratic"
    cutoff := 3
    beta_lines := [[4]] }

/-- The data `read_file` produces for `fC1`. -/
def pdC1 : PotData :=
  { n_species := 1
    n_max := 1
    l_max := 0
    beta_size := 1
    cutoff := 3
    n_descriptors := 1
    basis_function := some RadialBasis.chebyshev
    radial_hyps := [0, 3]
    cutoff_function := some CutoffFunc.quadratic_cutoff
    beta := applyWrites (fun _ => 0) (grab 1 [[4]])
    beta_matrices := fillAll (applyWrites (fun _ => 0) (grab 1 [[4]])) 1 1 }

/-- Witness for C1 at the concrete file `fC1`. -/
theorem claim_C1_witness :
    read_file fC1 = Except.ok pdC1 ∧ 0 < fC1.n_species ∧
    ((∀ i j, i ≤ j → j < pdC1.n_descriptors →
      (i = j → pdC1.beta_matrices.getD 0 (fun _ _ => 0) i j =
        pdC1.beta (0 * (triPairs pdC1.n_descriptors).length + triPos pdC1.n_descriptors i j)) ∧
      (i ≠ j → pdC1.beta_matrices.getD 0 (fun _ _ => 0) i j =
          pdC1.beta (0 * (triPairs pdC1.n_descriptors).length +
            triPos pdC1.n_descriptors i j) / 2 ∧
        pdC1.beta_matrices.getD 0 (fun _ _ => 0) j i =
          pdC1.beta (0 * (triPairs pdC1.n_descriptors).length +
            triPos pdC1.n_descriptors i j) / 2)) ∧
    (∀ i j, pdC1.beta_matrices.getD 0 (fun _ _ => 0) i j =
      pdC1.beta_matrices.getD 0 (fun _ _ => 0) j i)) :=
  ⟨rfl, by decide, claim_C1_covariance_matrix fC1 pdC1 rfl 0 (by decide)⟩

/-- C3: during loading, the descriptor count is
`D = (R * (R + 1) / 2) * (l_max + 1)` with `R = n_max * n_species`, and
`read_file` fails with the fatal error of line 369 exactly when
`D * (D + 1) / 2` differs from the `beta_size` declared in the file. The
failure value carries no data at all, so no partially built covariance
matrix exists in that case. -/
theorem claim_C3_beta_size_check (f : PotFile) :
    ((f.n_max * f.n_species) * (f.n_max * f.n_species + 1) / 2 * (f.l_max + 1) *
        ((f.n_max * f.n_species) * (f.n_max * f.n_species + 1) / 2 * (f.l_max + 1) + 1) / 2 =
        f.beta_size →
      ∃ pd, read_file f = Except.ok pd ∧
        pd.n_descriptors =
          (f.n_max * f.n_species) * (f.n_max * f.n_species + 1) / 2 * (f.l_max + 1)) ∧
    ((f.n_max * f.n_species) * (f.n_max * f.n_species + 1) / 2 * (f.l_max + 1) *
        ((f.n_max * f.n_species) * (f.n_max * f.n_species + 1) / 2 * (f.l_max + 1) + 1) / 2 ≠
        f.beta_size →
      read_file f = Except.error "Beta size does not match the number of descriptors.") := by
  constructor
  · intro hchk
    rcases read_file_of_check f hchk with ⟨pd, hok, hD, _⟩
    exact ⟨pd, hok, hD⟩
  · intro hchk
    exact read_file_of_check_ne f hchk

/-- The same hyperparameters as `fC1` but declaring `beta_size = 2`. -/
def fC3bad : PotFile :=
  { radial_string := "chebyshev"
    n_species := 1
    n_max := 1
    l_max := 0
    beta_size := 2
    cutoff_string := "quadratic"
    cutoff := 3
    beta_lines := [[4]] }

/-- Witness for C3: the file with `n_species = 1, n_max = 1, l_max = 0,
beta_size = 1` is accepted with `D = 1`, and the same hyperparameters with
`beta_size = 2` are rejected with the fatal error. -/
theorem claim_C3_witness :
    ((fC1.n_max * fC1.n_species) * (fC1.n_max * fC1.n_species + 1) / 2 * (fC1.l_max + 1) *
        ((fC1.n_max * fC1.n_species) * (fC1.n_max * fC1.n_species + 1) / 2 *
          (fC1.l_max + 1) + 1) / 2 = fC1.beta_size) ∧
    (∃ pd, read_file fC1 = Except.ok pd ∧
      pd.n_descriptors =
        (fC1.n_max * fC1.n_species) * (fC1.n_max * fC1.n_species + 1) / 2 * (fC1.l_max + 1)) ∧
    ((fC3bad.n_max * fC3bad.n_species) * (fC3bad.n_max * fC3bad.n_species + 1) / 2 *
        (fC3bad.l_max + 1) *
        ((fC3bad.n_max * fC3bad.n_species) * (fC3bad.n_max * fC3bad.n_species + 1) / 2 *
          (fC3bad.l_max + 1) + 1) / 2 ≠ fC3bad.beta_size) ∧
    read_file fC3bad = Except.error "Beta size does not match the number of descriptors." :=
  ⟨by decide, (claim_C3_beta_size_check fC1).1 (by decide), by decide,
    (claim_C3_beta_size_check fC3bad).2 (by decide)⟩

/-- A potential file whose radial-basis token is not in the recognized set. -/
def fC6 : PotFile :=
  { radial_string := "flat"
    n_species := 1
    n_max := 1
    l_max := 0
    beta_size := 1
    cutoff_string := "quadratic"
    cutoff := 3
    beta_lines := [[4]] }

/-- The data `read_file` produces for `fC6`: loading succeeds, the basis is
left unset. -/
def pdC6 : PotData :=
  { n_species := 1
    n_max := 1
    l_max := 0
    beta_size := 1
    cutoff := 3
    n_descriptors := 1
    basis_function := none
    radial_hyps := []
    cutoff_function := some CutoffFunc.quadratic_cutoff
    beta := applyWrites (fun _ => 0) (grab 1 [[4]])
    beta_matrices := fillAll (applyWrites (fun _ => 0) (grab 1 [[4]])) 1 1 }

/-- Counterexample to C6: with the unknown radial token "flat" (and an
otherwise valid header), loading does not fail - `read_file` returns a
success value whose `basis_function` is unset, so the unknown token is
silently accepted, contrary to the claim that loading fails with a
configuration error. -/
theorem claim_C6_counterexample :
    read_file fC6 = Except.ok pdC6 ∧ pdC6.basis_function = none ∧
    ∀ e, read_file fC6 ≠ Except.error e := by
  refine ⟨rfl, rfl, ?_⟩
  intro e h
  rw [show read_file fC6 = Except.ok pdC6 from rfl] at h
  cases h

/-- C6 amended: when the potential file passes the beta-size check, loading
succeeds regardless of the radial-basis token; an unrecognized token is
silently accepted and leaves the basis strategy unset (`none`), while only
the token "chebyshev" selects a basis. -/
theorem claim_C6_amended (f : PotFile)
    (hchk : (f.n_max * f.n_species) * (f.n_max * f.n_species + 1) / 2 * (f.l_max + 1) *
        ((f.n_max * f.n_species) * (f.n_max * f.n_species + 1) / 2 * (f.l_max + 1) + 1) / 2 =
      f.beta_size) :
    ∃ pd, read_file f = Except.ok pd ∧
      pd.basis_function =
        (if f.radial_string = "chebyshev" then some RadialBasis.chebyshev else none) := by
  rcases read_file_of_check f hchk with ⟨pd, hok, _, hbasis⟩
  exact ⟨pd, hok, hbasis⟩

/-- Witness for the amended C6 at the concrete file `fC6`. -/
theorem claim_C6_amended_witness :
    ((fC6.n_max * fC6.n_species) * (fC6.n_max * fC6.n_species + 1) / 2 * (fC6.l_max + 1) *
        ((fC6.n_max * fC6.n_species) * (fC6.n_max * fC6.n_species + 1) / 2 *
          (fC6.l_max + 1) + 1) / 2 = fC6.beta_size) ∧
    ∃ pd, read_file fC6 = Except.ok pd ∧
      pd.basis_function =
        (if fC6.radial_string = "chebyshev" then some RadialBasis.chebyshev else none) :=
  ⟨by decide, claim_C6_amended fC6 (by decide)⟩

/-- Counterexample to C8: asked for `n = 1` value from a line holding the two
tokens 1.0 and 2.0, `grab` writes both of them - the write list is
`[(0, 1), (1, 2)]`, which has two entries instead of one and stores at index
1, past index `n - 1 = 0`; the inner token loop has no bound check, so extra
tokens on a line are written past the end of the array. -/
theorem claim_C8_counterexample :
    grab 1 [[(1 : ℚ), 2]] = [(0, 1), (1, 2)] ∧
    (grab 1 [[(1 : ℚ), 2]]).length ≠ 1 ∧
    ¬(∀ w ∈ grab 1 [[(1 : ℚ), 2]], w.1 < 1) := by
  refine ⟨rfl, by decide, ?_⟩
  intro h
  exact absurd (h (1, 2) (by decide)) (by decide)

/-- C8 amended: when the remaining lines hold exactly `beta_size * n_species`
values in total (so no line crosses the boundary of the request, and no line
is empty), `grab` writes exactly those values, in order, at indices
`0 .. n - 1` and never past index `n - 1`; but when a line holds more
whitespace-separated tokens than values still needed, the extra tokens are
also written, past index `n - 1` (see the counterexample). -/
theorem claim_C8_amended (n : Nat) (lines : List (List ℚ))
    (hne : ∀ l ∈ lines, l ≠ []) (htot : (lines.map List.length).sum = n) :
    (grab n lines).length = n ∧
    (∀ w ∈ grab n lines, w.1 < n) ∧
    grab n lines = lineWrites 0 lines.flatten := by
  have h := grab_exact n lines hne htot
  exact ⟨h.2.1, h.2.2, h.1⟩

/-- Witness for the amended C8: two values spread over two lines. -/
theorem claim_C8_amended_witness :
    (∀ l ∈ [[(5 : ℚ)], [7]], l ≠ []) ∧
    (([[(5 : ℚ)], [7]].map List.length).sum = 2) ∧
    ((grab 2 [[(5 : ℚ)], [7]]).length = 2 ∧
      (∀ w ∈ grab 2 [[(5 : ℚ)], [7]], w.1 < 2) ∧
      grab 2 [[(5 : ℚ)], [7]] = lineWrites 0 [[(5 : ℚ)], [7]].flatten) :=
  ⟨by decide, by decide, claim_C8_amended 2 [[(5 : ℚ)], [7]] (by decide) (by decide)⟩

/-- C7: `pack_reverse_comm` writes exactly the 3 component values of each atom
in the contiguous range `[first, first + n)`, in atom order, 3 doubles per
atom - entry `3 * t + c` of the buffer is `stds[first + t][c]` - and returns
the number of doubles written, `3 * n`; `unpack_reverse_comm` adds (does not
overwrite) each received triple onto the listed destination atom's row and
leaves every atom not in the list unchanged. -/
theorem claim_C7_pack_unpack (s : SimState) (n first : Nat) (js : List Nat)
    (buf : List ℚ) (hnd : js.Nodup) :
    (pack_reverse_comm s n first).1.length = 3 * n ∧
    (pack_reverse_comm s n first).2 = 3 * n ∧
    (∀ t c, t < n → c < 3 →
      (pack_reverse_comm s n first).1.getD (3 * t + c) 0 = s.stds (first + t) c) ∧
    (∀ k, k < js.length → ∀ c, c < 3 →
      (unpack_reverse_comm s js buf).stds (js.getD k 0) c =
        s.stds (js.getD k 0) c + buf.getD (3 * k + c) 0) ∧
    (∀ a c, a ∉ js → (unpack_reverse_comm s js buf).stds a c = s.stds a c) := by
  refine ⟨packLoop_length s.stds first n, ?_, ?_, ?_, ?_⟩
  · show (packLoop s.stds first n).length = 3 * n
    exact packLoop_length s.stds first n
  · intro t c ht hc
    exact packLoop_getD s.stds n first t c ht hc
  · intro k hk c hc
    exact unpackLoop_getD js s.stds buf hnd k hk c hc
  · intro a c ha
    exact unpackLoop_not_mem js s.stds buf a c ha

/-- Witness for C7 at a concrete state, range and index list. -/
theorem claim_C7_witness :
    ([2, 0] : List Nat).Nodup ∧
    ((pack_reverse_comm zeroState 2 1).1.length = 3 * 2 ∧
      (pack_reverse_comm zeroState 2 1).2 = 3 * 2 ∧
      (∀ t c, t < 2 → c < 3 →
        (pack_reverse_comm zeroState 2 1).1.getD (3 * t + c) 0 = zeroState.stds (1 + t) c) ∧
      (∀ k, k < ([2, 0] : List Nat).length → ∀ c, c < 3 →
        (unpack_reverse_comm zeroState [2, 0] [1, 1, 1, 1, 1, 1]).stds
            (([2, 0] : List Nat).getD k 0) c =
          zeroState.stds (([2, 0] : List Nat).getD k 0) c +
            ([1, 1, 1, 1, 1, 1] : List ℚ).getD (3 * k + c) 0) ∧
      (∀ a c, a ∉ ([2, 0] : List Nat) →
        (unpack_reverse_comm zeroState [2, 0] [1, 1, 1, 1, 1, 1]).stds a c =
          zeroState.stds a c)) :=
  ⟨by decide, claim_C7_pack_unpack zeroState 2 1 [2, 0] [1, 1, 1, 1, 1, 1] (by decide)⟩

/-- C10: the constructor declares a reverse-communication width of
`comm_reverse = 1` double per atom (line 37), but `pack_reverse_comm` writes
3 doubles per atom: already for a single atom the packed buffer holds 3
entries, exceeding the declared budget `comm_reverse * n = 1`. The claim that
the declared width matches the packed width fails on the code; the host
engine allocates its reverse buffers from `comm_reverse`, so the pack
overruns them. -/
theorem claim_C10_width_mismatch :
    comm_reverse = 1 ∧
    (pack_reverse_comm zeroState 1 0).1.length = 3 ∧
    (pack_reverse_comm zeroState 1 0).2 = 3 ∧
    ¬((pack_reverse_comm zeroState 1 0).1.length ≤ comm_reverse * 1) := by
  refine ⟨rfl, rfl, rfl, by decide⟩

/-- Configuration with one owned atom and one ghost atom under newton on, so
`ntotal = 2` while only `ilist[0]` is a valid neighbor-list entry; the read
of `ilist[1]` past the valid entries is modelled by the total function
returning the stale value 0 there. -/
def cfg9 : SimConfig :=
  { nlocal := 1
    nghost := 1
    newton := true
    inum := 1
    ilist := fun _ => 0
    firstneigh := fun _ => []
    x := fun _ _ => 0
    typ := fun _ => 1
    cutoff := 1
    n_descriptors := 1
    B2_env_dervs := fun _ _ _ => 0
    beta_matrices := fun _ _ _ => 0 }

/-- A pre-step state with nonzero entries everywhere, distinguishing the
ghost atom (index 1, derivative rows 3 to 5) from the owned atom. -/
def s9 : SimState :=
  { stds := fun a _ => if a = 1 then 5 else 7
    desc_derv := fun r _ => if 3 ≤ r then 9 else 8 }

/-- C9 evaluated at the failing input: with `nlocal = 1`, `nghost = 1` and
newton on, the zeroing loop runs `ii` up to `ntotal = 2` but indexes
`i = ilist[ii]`, reading `ilist[1]` past the `inum = 1` valid entries; with
the stale value 0 there, the loop zeroes atom 0 twice and the ghost atom
keeps its stale uncertainty entry 5 and derivative entry 9 - contradicting
the claim that every owned and ghost atom is zeroed at the top of the
step. -/
theorem claim_C9_reset_misses_ghost :
    ntotal cfg9 = 2 ∧
    (resetPhase cfg9 s9).stds 0 0 = 0 ∧
    (resetPhase cfg9 s9).stds 1 0 = 5 ∧
    (resetPhase cfg9 s9).desc_derv (1 * 3 + 0) 0 = 9 ∧
    (5 : ℚ) ≠ 0 ∧ (9 : ℚ) ≠ 0 := by
  refine ⟨rfl, by decide, by decide, by decide, by decide, by decide⟩

/-- C4: after the accumulation pass (and before any reduction), for every
fixed descriptor column `nl` and component, the derivative table summed over
all atoms, owned and ghost, is exactly zero, because every in-cutoff
contribution is added to atom `i` and the identical value subtracted from
atom `j`. The table is assumed zero at the start of the pass, neighbor-list
entries are assumed to name atoms (owned or ghost), which is what the host
guarantees. -/
theorem claim_C4_newton_sum (cfg : SimConfig) (s : SimState) (comp nl : Nat)
    (hcomp : comp < 3)
    (hzero : ∀ r n, s.desc_derv r n = 0)
    (hil : ∀ ii, ii < cfg.inum → cfg.ilist ii < cfg.nlocal + cfg.nghost)
    (hnb : ∀ ii, ii < cfg.inum →
      ∀ j ∈ cfg.firstneigh (cfg.ilist ii), j < cfg.nlocal + cfg.nghost) :
    (∑ a ∈ Finset.range (cfg.nlocal + cfg.nghost),
      (accumPhase cfg s).desc_derv (a * 3 + comp) nl) = 0 := by
  have h1 : rowSum (cfg.nlocal + cfg.nghost) (accumPhase cfg s).desc_derv comp nl =
      rowSum (cfg.nlocal + cfg.nghost) s.desc_derv comp nl :=
    accumPhase_rowSum cfg (cfg.nlocal + cfg.nghost) s comp nl hcomp hil hnb
  have h2 : rowSum (cfg.nlocal + cfg.nghost) s.desc_derv comp nl = 0 := by
    unfold rowSum
    exact Finset.sum_eq_zero (fun a _ => hzero _ _)
  show rowSum (cfg.nlocal + cfg.nghost) (accumPhase cfg s).desc_derv comp nl = 0
  rw [h1, h2]

/-- An isolated two-atom system: both atoms owned, each the only neighbor of
the other, within the cutoff. -/
def cfgW4 : SimConfig :=
  { nlocal := 2
    nghost := 0
    newton := true
    inum := 2
    ilist := fun ii => ii
    firstneigh := fun i => if i = 0 then [1] else [0]
    x := fun a c => if a = 1 ∧ c = 0 then 1 else 0
    typ := fun _ => 1
    cutoff := 2
    n_descriptors := 1
    B2_env_dervs := fun _ _ _ => 1
    beta_matrices := fun _ _ _ => 1 }

/-- Witness for C4 on the isolated two-atom interaction. -/
theorem claim_C4_witness :
    (0 : Nat) < 3 ∧
    (∀ r n, zeroState.desc_derv r n = 0) ∧
    (∀ ii, ii < cfgW4.inum → cfgW4.ilist ii < cfgW4.nlocal + cfgW4.nghost) ∧
    (∀ ii, ii < cfgW4.inum →
      ∀ j ∈ cfgW4.firstneigh (cfgW4.ilist ii), j < cfgW4.nlocal + cfgW4.nghost) ∧
    (∑ a ∈ Finset.range (cfgW4.nlocal + cfgW4.nghost),
      (accumPhase cfgW4 zeroState).desc_derv (a * 3 + 0) 0) = 0 :=
  ⟨by decide, fun r n => rfl, by decide, by decide,
    claim_C4_newton_sum cfgW4 zeroState 0 0 (by decide) (fun r n => rfl) (by decide)
      (by decide)⟩

/-- C2: for every owned atom `i = ilist[ii]` and component `c`, after the
reset and accumulation phases the evaluation loop leaves in `stds[i][c]`
exactly the upper-triangular weighted contraction of the accumulated
derivative row `d` against the species matrix (weight 1 on the diagonal,
weight 2 off it), and that value equals the full quadratic form
`d^T Sigma d` over all `D x D` index pairs when `Sigma` is symmetric (which
the reconstructed covariance matrix is, by C1). No square root or
normalization is applied: the stored value is the raw quadratic form. -/
theorem claim_C2_quadratic_form (cfg : SimConfig) (s : SimState)
    (hinj : ∀ a b, a < cfg.inum → b < cfg.inum → cfg.ilist a = cfg.ilist b → a = b)
    (hle : cfg.inum ≤ ntotal cfg)
    (ii c : Nat) (hii : ii < cfg.inum) (hc : c < 3)
    (hsym : ∀ n1 n2, cfg.beta_matrices (cfg.typ (cfg.ilist ii) - 1) n1 n2 =
      cfg.beta_matrices (cfg.typ (cfg.ilist ii) - 1) n2 n1) :
    (compute_peratom cfg s).stds (cfg.ilist ii) c =
      ((triPairs cfg.n_descriptors).map
        (fun p => evalTerm cfg (accumPhase cfg (resetPhase cfg s)).desc_derv
          (cfg.ilist ii) c p.1 p.2)).sum ∧
    (compute_peratom cfg s).stds (cfg.ilist ii) c =
      ∑ n1 ∈ Finset.range cfg.n_descriptors, ∑ n2 ∈ Finset.range cfg.n_descriptors,
        (accumPhase cfg (resetPhase cfg s)).desc_derv (cfg.ilist ii * 3 + c) n1 *
          cfg.beta_matrices (cfg.typ (cfg.ilist ii) - 1) n1 n2 *
          (accumPhase cfg (resetPhase cfg s)).desc_derv (cfg.ilist ii * 3 + c) n2 := by
  set i0 := cfg.ilist ii with hi0
  set sacc := accumPhase cfg (resetPhase cfg s) with hsacc
  have hfold : compute_peratom cfg s =
      ((List.range cfg.inum).map cfg.ilist).foldl (evalAtom cfg) sacc := by
    rw [compute_peratom, ← hsacc, evalPhase, List.foldl_map]
  have hr := range_split cfg.inum ii hii
  have hmapsplit : (List.range cfg.inum).map cfg.ilist =
      (List.range ii).map cfg.ilist ++ i0 ::
        ((List.range (cfg.inum - ii - 1)).map (fun a => ii + 1 + a)).map cfg.ilist := by
    rw [hr, List.map_append, List.map_append, List.append_assoc]
    simp [hi0]
  have h1 : i0 ∉ (List.range ii).map cfg.ilist := by
    intro hmem
    rcases List.mem_map.mp hmem with ⟨a, ha, hval⟩
    have halt : a < ii := List.mem_range.mp ha
    rw [hi0] at hval
    have : a = ii := hinj a ii (by omega) hii hval
    omega
  have h2 : i0 ∉ ((List.range (cfg.inum - ii - 1)).map (fun a => ii + 1 + a)).map cfg.ilist := by
    intro hmem
    rcases List.mem_map.mp hmem with ⟨b, hb, hval⟩
    rcases List.mem_map.mp hb with ⟨a, ha, hab⟩
    have halt : a < cfg.inum - ii - 1 := List.mem_range.mp ha
    subst hab
    rw [hi0] at hval
    have : ii + 1 + a = ii := hinj (ii + 1 + a) ii (by omega) hii hval
    omega
  have hstds0 : sacc.stds i0 c = 0 := by
    rw [hsacc, accumPhase_stds]
    exact resetPhase_stds_zero cfg s i0 c hc ⟨ii, Nat.lt_of_lt_of_le hii hle, hi0.symm⟩
  have hmain : (compute_peratom cfg s).stds i0 c =
      sacc.stds i0 c + ((triPairs cfg.n_descriptors).map
        (fun p => evalTerm cfg sacc.desc_derv i0 c p.1 p.2)).sum := by
    rw [hfold, hmapsplit]
    exact evalAtomFold_split cfg _ _ i0 h1 h2 sacc c hc
  rw [hstds0, zero_add] at hmain
  refine ⟨hmain, ?_⟩
  rw [hmain]
  rw [triPairs_map_sum cfg.n_descriptors
    (fun p => evalTerm cfg sacc.desc_derv i0 c p.1 p.2)]
  have hfull := tri_weighted_full cfg.n_descriptors
    (fun n1 n2 => sacc.desc_derv (i0 * 3 + c) n1 *
      cfg.beta_matrices (cfg.typ i0 - 1) n1 n2 * sacc.desc_derv (i0 * 3 + c) n2)
    (fun n1 n2 => by dsimp only; rw [hsym]; ring)
  dsimp only
  simp only [evalTerm]
  exact hfull

/-- A single owned atom with no neighbors, one descriptor, unit covariance. -/
def cfgW2 : SimConfig :=
  { nlocal := 1
    nghost := 0
    newton := true
    inum := 1
    ilist := fun ii => ii
    firstneigh := fun _ => []
    x := fun _ _ => 0
    typ := fun _ => 1
    cutoff := 1
    n_descriptors := 1
    B2_env_dervs := fun _ _ _ => 0
    beta_matrices := fun _ _ _ => 1 }

/-- Witness for C2 on a one-atom configuration. -/
theorem claim_C2_witness :
    (∀ a b, a < cfgW2.inum → b < cfgW2.inum → cfgW2.ilist a = cfgW2.ilist b → a = b) ∧
    cfgW2.inum ≤ ntotal cfgW2 ∧ (0 : Nat) < cfgW2.inum ∧ (0 : Nat) < 3 ∧
    (∀ n1 n2, cfgW2.beta_matrices (cfgW2.typ (cfgW2.ilist 0) - 1) n1 n2 =
      cfgW2.beta_matrices (cfgW2.typ (cfgW2.ilist 0) - 1) n2 n1) ∧
    ((compute_peratom cfgW2 zeroState).stds (cfgW2.ilist 0) 0 =
      ((triPairs cfgW2.n_descriptors).map
        (fun p => evalTerm cfgW2 (accumPhase cfgW2 (resetPhase cfgW2 zeroState)).desc_derv
          (cfgW2.ilist 0) 0 p.1 p.2)).sum ∧
    (compute_peratom cfgW2 zeroState).stds (cfgW2.ilist 0) 0 =
      ∑ n1 ∈ Finset.range cfgW2.n_descriptors, ∑ n2 ∈ Finset.range cfgW2.n_descriptors,
        (accumPhase cfgW2 (resetPhase cfgW2 zeroState)).desc_derv (cfgW2.ilist 0 * 3 + 0) n1 *
          cfgW2.beta_matrices (cfgW2.typ (cfgW2.ilist 0) - 1) n1 n2 *
          (accumPhase cfgW2 (resetPhase cfgW2 zeroState)).desc_derv
            (cfgW2.ilist 0 * 3 + 0) n2) :=
  ⟨fun a b _ _ h => h, by decide, by decide, by decide, fun n1 n2 => rfl,
    claim_C2_quadratic_form cfgW2 zeroState (fun a b _ _ h => h) (by decide) 0 0
      (by decide) (by decide) (fun n1 n2 => rfl)⟩

/-- State with zero uncertainties and nonzero derivative rows: rows 0 to 2
(atom 0, the owner) hold 1, all later rows (ghost atoms) hold 2. -/
def sC5 : SimState :=
  { stds := fun _ _ => 0
    desc_derv := fun r _ => if r < 3 then 1 else 2 }

/-- Counterexample to C5: packing ghost atom 1 and unpacking onto owner atom
0 leaves the entire derivative table unchanged - the pair reads and writes
only `stds` - so the ghost atom's accumulated derivative row (value 2) is
never folded onto the owner's row, which keeps its old value 1 instead of
1 + 2. Moreover `compute_peratom` never invokes the pair at all. -/
theorem claim_C5_counterexample :
    (unpack_reverse_comm sC5 [0] (pack_reverse_comm sC5 1 1).1).desc_derv = sC5.desc_derv ∧
    (unpack_reverse_comm sC5 [0] (pack_reverse_comm sC5 1 1).1).desc_derv (0 * 3 + 0) 0 = 1 ∧
    sC5.desc_derv (1 * 3 + 0) 0 = 2 ∧
    (1 : ℚ) + 2 ≠ 1 :=
  ⟨rfl, by decide, by decide, by norm_num⟩

/-- C5 amended: the reverse-communication pair transmits and additively folds
the per-atom 3-component uncertainty values (`stds`), not derivative rows -
unpack leaves the derivative table untouched, and after unpacking the packed
buffer of the source range, each destination atom's `stds` entry has the
source atom's `stds` entry added to it; and the per-step pipeline of
`compute_peratom` is reset, then accumulate, then evaluate, with no
reduction step invoked in between. -/
theorem claim_C5_amended :
    (∀ (s : SimState) (js : List Nat) (buf : List ℚ),
      (unpack_reverse_comm s js buf).desc_derv = s.desc_derv) ∧
    (∀ (cfg : SimConfig) (s : SimState),
      compute_peratom cfg s = evalPhase cfg (accumPhase cfg (resetPhase cfg s))) ∧
    (∀ (s : SimState) (js : List Nat) (n first : Nat), js.Nodup → js.length = n →
      ∀ k, k < n → ∀ c, c < 3 →
        (unpack_reverse_comm s js (pack_reverse_comm s n first).1).stds (js.getD k 0) c =
          s.stds (js.getD k 0) c + s.stds (first + k) c) := by
  refine ⟨fun s js buf => rfl, fun cfg s => rfl, ?_⟩
  intro s js n first hnd hlen k hk c hc
  have hk2 : k < js.length := by omega
  rw [show (unpack_reverse_comm s js (pack_reverse_comm s n first).1).stds =
    unpackLoop s.stds js (pack_reverse_comm s n first).1 from rfl]
  rw [unpackLoop_getD js s.stds _ hnd k hk2 c hc]
  congr 1
  exact packLoop_getD s.stds n first k c hk hc

/-- Witness for the amended C5. -/
theorem claim_C5_amended_witness :
    ([0] : List Nat).Nodup ∧ ([0] : List Nat).length = 1 ∧ (0 : Nat) < 1 ∧ (0 : Nat) < 3 ∧
    (unpack_reverse_comm sC5 [0] (pack_reverse_comm sC5 1 1).1).stds
        (([0] : List Nat).getD 0 0) 0 =
      sC5.stds (([0] : List Nat).getD 0 0) 0 + sC5.stds (1 + 0) 0 :=
  ⟨by decide, rfl, by decide, by decide,
    claim_C5_amended.2.2 sC5 [0] 1 1 (by decide) rfl 0 (by decide) 0 (by decide)⟩

end Flare
